import Mathlib

/-!
Verification development for the databutton code-visualiser backend
(`backend/codebase.py`).  The Python source is shallowly embedded below:
pure helper functions become Lean functions over `String` / `List Char`,
the filesystem becomes a function from relative component paths to
metadata, and the mutable `all_files_map` dictionary becomes an explicit
association list threaded through the recursion.  Machine details kept
faithful to CPython where they are observable: `os.path.splitext`,
`os.path.join`, `os.path.dirname`, `posixpath.normpath`, string
truthiness, dictionary insertion order, and the backtracking order of the
regular-expression patterns used by `extract_imports` (greedy pieces try
longest first, lazy pieces shortest first, findall scans left to right
and resumes after each match).  Character classes are modelled on their
ASCII portion, which covers every string the program manipulates.
-/

/-! ### Character helpers -/

def toLowerChar (c : Char) : Char :=
  if 'A' ≤ c ∧ c ≤ 'Z' then Char.ofNat (c.toNat + 32) else c

def toUpperChar (c : Char) : Char :=
  if 'a' ≤ c ∧ c ≤ 'z' then Char.ofNat (c.toNat - 32) else c

/-- Python regex class matched by a backslash-s, ASCII portion. -/
def isSpaceChar (c : Char) : Bool :=
  c = ' ' ∨ c = '\t' ∨ c = '\n' ∨ c = '\r' ∨ c = Char.ofNat 11 ∨ c = Char.ofNat 12

/-- Python regex class matched by a backslash-w, ASCII portion. -/
def isWordChar (c : Char) : Bool :=
  ('a' ≤ c ∧ c ≤ 'z') ∨ ('A' ≤ c ∧ c ≤ 'Z') ∨ ('0' ≤ c ∧ c ≤ '9') ∨ c = '_'

/-- Class of the bracket expression containing a backslash-w and a dot. -/
def isWordDotChar (c : Char) : Bool :=
  isWordChar c || c = '.'

/-! ### Substring search (the Python `in` operator on strings) -/

def isPrefixL : List Char → List Char → Bool
  | [], _ => true
  | _ :: _, [] => false
  | a :: as, b :: bs => a = b && isPrefixL as bs

def containsL (pat : List Char) : List Char → Bool
  | [] => isPrefixL pat []
  | c :: rest => isPrefixL pat (c :: rest) || containsL pat rest

/-- Python `pat in s` for strings. -/
def strContains (s pat : String) : Bool :=
  containsL pat.toList s.toList

/-- Python `str.startswith`. -/
def strStartsWith (s pre : String) : Bool :=
  isPrefixL pre.toList s.toList

/-- Python `str.endswith`. -/
def strEndsWith (s suf : String) : Bool :=
  isPrefixL suf.toList.reverse s.toList.reverse

/-- Python slicing from a character index to the end. -/
def strDrop (s : String) (n : Nat) : String :=
  String.mk (s.toList.drop n)

/-! ### posix path helpers (`os.path` on a posix system) -/

/-- Split on the slash character, keeping empty pieces, like the Python
`str.split` method with a slash argument. -/
def splitSlash : List Char → List (List Char)
  | [] => [[]]
  | c :: cs =>
    if c = '/' then [] :: splitSlash cs
    else
      match splitSlash cs with
      | [] => [[c]]
      | h :: t => (c :: h) :: t

/-- Number of leading slashes retained by `posixpath.normpath`: one when
the path starts with a slash, except exactly two for the POSIX
double-slash special case, exactly as the two startswith tests in
CPython decide it. -/
def initialSlashes (s : List Char) : Nat :=
  if isPrefixL ['/', '/'] s ∧ ¬ isPrefixL ['/', '/', '/'] s then 2
  else if isPrefixL ['/'] s then 1
  else 0

/-- One step of the component loop inside `posixpath.normpath`. -/
def normStep (slashes : Nat) (acc : List (List Char)) (comp : List Char) : List (List Char) :=
  if comp = [] ∨ comp = ['.'] then acc
  else if comp ≠ ['.', '.'] ∨ (slashes = 0 ∧ acc = []) ∨ acc.getLast? = some ['.', '.'] then
    acc ++ [comp]
  else if acc ≠ [] then acc.dropLast
  else acc

/-- Body of `posixpath.normpath` over the character list. -/
def normCore (cs : List Char) : String :=
  if cs = [] then "."
  else
    let slashes := initialSlashes cs
    let comps := (splitSlash cs).foldl (normStep slashes) []
    let path := String.mk (List.replicate slashes '/') ++
      String.intercalate "/" (comps.map fun l => String.mk l)
    if path = "" then "." else path

/-- Faithful `posixpath.normpath`. -/
def normpath (s : String) : String :=
  normCore s.toList

/-- Faithful `posixpath.basename`: everything after the last slash. -/
def pyBasename (s : String) : String :=
  String.mk ((s.toList.reverse.takeWhile (fun c => c ≠ '/')).reverse)

/-- Faithful `posixpath.dirname`: everything up to the last slash, with
trailing slashes stripped unless the head is all slashes. -/
def pyDirname (s : String) : String :=
  let head := (s.toList.reverse.dropWhile (fun c => c ≠ '/')).reverse
  if head = [] ∨ head.all (fun c => c = '/') then String.mk head
  else String.mk (head.reverse.dropWhile (fun c => c = '/')).reverse

/-- Faithful two-argument `posixpath.join`. -/
def pyJoin (a b : String) : String :=
  if strStartsWith b "/" then b
  else if a = "" ∨ strEndsWith a "/" then a ++ b
  else a ++ "/" ++ b

/-- Python `str.lstrip` with a slash argument. -/
def lstripSlashes (s : String) : String :=
  String.mk (s.toList.dropWhile (fun c => c = '/'))

/-- Relative path string of a component list (joined by slashes). -/
def pathStr (cur : List String) : String :=
  String.intercalate "/" cur

/-- Inverse of `pathStr` used when a stored relative path is re-opened. -/
def splitPath (s : String) : List String :=
  if s = "" then [] else (splitSlash s.toList).map (fun l => String.mk l)

/-! ### `get_file_extension` and `get_language` -/

/-- Extension part of `os.path.splitext` (with its leading dot), faithful
to CPython: leading dots of the basename never start an extension. -/
def splitextExt (s : List Char) : List Char :=
  let bn := (s.reverse.takeWhile (fun c => c ≠ '/')).reverse
  let extRev := bn.reverse.takeWhile (fun c => c ≠ '.')
  if extRev.length = bn.length then []
  else
    let stem := bn.take (bn.length - extRev.length - 1)
    if stem.all (fun c => c = '.') then [] else '.' :: extRev.reverse

/-- Lowercased extension without the dot, empty when there is none. -/
def get_file_extension (file_path : String) : String :=
  let e := splitextExt file_path.toList
  if e = [] then "" else String.mk ((e.drop 1).map toLowerChar)

def language_map : List (String × String) :=
  [("py", "Python"), ("js", "JavaScript"), ("jsx", "JavaScript (React)"),
   ("ts", "TypeScript"), ("tsx", "TypeScript (React)"), ("html", "HTML"),
   ("css", "CSS"), ("json", "JSON"), ("md", "Markdown"), ("yml", "YAML"),
   ("yaml", "YAML"), ("txt", "Text")]

def get_language (file_path : String) : String :=
  let ext := get_file_extension file_path
  match (language_map.find? (fun p => p.1 = ext)).map (fun p => p.2) with
  | some l => l
  | none => if ext = "" then "Unknown" else String.mk (ext.toList.map toUpperChar)

/-! ### Backtracking matchers for the five regex patterns

Each matcher anchors at the start of its input and returns the first
capture together with the rest of the input after the whole match,
exploring alternatives in CPython order: greedy pieces longest first,
lazy pieces shortest first. -/

/-- Consume an exact literal. -/
def tryLit : List Char → List Char → Option (List Char)
  | [], s => some s
  | _ :: _, [] => none
  | c :: cs, x :: xs => if x = c then tryLit cs xs else none

/-- Try the continuation after dropping n, n-1, ..., 1 characters. -/
def tryDrops (k : List Char → Option α) (s : List Char) : Nat → Option α
  | 0 => none
  | n + 1 =>
    match k (s.drop (n + 1)) with
    | some r => some r
    | none => tryDrops k s n

/-- Greedy plus of the whitespace class. -/
def wsPlus (k : List Char → Option α) (s : List Char) : Option α :=
  tryDrops k s (s.takeWhile isSpaceChar).length

/-- Greedy star of the whitespace class. -/
def wsStar (k : List Char → Option α) (s : List Char) : Option α :=
  match tryDrops k s (s.takeWhile isSpaceChar).length with
  | some r => some r
  | none => k s

/-- Greedy capture: try the longest split first, passing the taken
prefix and the rest to the continuation. -/
def tryTakes (k : List Char → List Char → Option α) (s : List Char) : Nat → Option α
  | 0 => none
  | n + 1 =>
    match k (s.take (n + 1)) (s.drop (n + 1)) with
    | some r => some r
    | none => tryTakes k s n

/-- Greedy plus of the word-or-dot class, capturing the taken run. -/
def wordDotPlusCap (k : List Char → List Char → Option α) (s : List Char) : Option α :=
  tryTakes k s (s.takeWhile isWordDotChar).length

/-- Lazy star of the any-but-newline class, no capture. -/
def lazyDotStar (k : List Char → Option α) : List Char → Option α
  | [] => k []
  | c :: rest =>
    match k (c :: rest) with
    | some r => some r
    | none => if c = '\n' then none else lazyDotStar k rest

/-- Lazy star of the any-but-newline class, capturing the consumed run. -/
def lazyDotStarCap (k : List Char → List Char → Option α) (acc : List Char) :
    List Char → Option α
  | [] => k acc.reverse []
  | c :: rest =>
    match k acc.reverse (c :: rest) with
    | some r => some r
    | none => if c = '\n' then none else lazyDotStarCap k (c :: acc) rest

/-- Lazy star of an arbitrary class. -/
def lazyClsStar (p : Char → Bool) (k : List Char → Option α) : List Char → Option α
  | [] => k []
  | c :: rest =>
    match k (c :: rest) with
    | some r => some r
    | none => if p c then lazyClsStar p k rest else none

/-- The single or double quote character class. -/
def tryQuote : List Char → Option (List Char)
  | c :: rest => if c = Char.ofNat 39 ∨ c = '"' then some rest else none
  | [] => none

/-- Greedy optional semicolon group. -/
def optSemi (k : List Char → Option α) (s : List Char) : Option α :=
  match s with
  | ';' :: rest =>
    (match k rest with
     | some r => some r
     | none => k (';' :: rest))
  | _ => k s

/-- JS pattern one: an import of some names from a quoted module, with an
optional trailing semicolon; group one is the quoted module text. -/
def js1Try (s : List Char) : Option (List Char × List Char) :=
  (tryLit "import".toList s).bind fun s1 =>
  wsPlus (fun s2 =>
    lazyDotStar (fun s3 =>
      wsPlus (fun s4 =>
        (tryLit "from".toList s4).bind fun s5 =>
        wsPlus (fun s6 =>
          (tryQuote s6).bind fun s7 =>
          lazyDotStarCap (fun cap s8 =>
            (tryQuote s8).bind fun s9 =>
            optSemi (fun s10 => some (cap, s10)) s9) [] s7) s5) s3) s2) s1

/-- JS pattern two: a direct import of a quoted module. -/
def js2Try (s : List Char) : Option (List Char × List Char) :=
  (tryLit "import".toList s).bind fun s1 =>
  wsPlus (fun s2 =>
    (tryQuote s2).bind fun s3 =>
    lazyDotStarCap (fun cap s4 =>
      (tryQuote s4).bind fun s5 =>
      optSemi (fun s6 => some (cap, s6)) s5) [] s3) s1

/-- JS pattern three: a require call around a quoted module. -/
def js3Try (s : List Char) : Option (List Char × List Char) :=
  (tryLit "require".toList s).bind fun s1 =>
  lazyClsStar isSpaceChar (fun s2 =>
    (tryLit "(".toList s2).bind fun s3 =>
    wsStar (fun s4 =>
      (tryQuote s4).bind fun s5 =>
      lazyDotStarCap (fun cap s6 =>
        (tryQuote s6).bind fun s7 =>
        optSemi (fun s8 => (tryLit ")".toList s8).bind fun s9 => some (cap, s9)) s7) [] s5) s3) s1

/-- Python pattern one: the import keyword followed by a dotted name. -/
def pyImportTry (s : List Char) : Option (List Char × List Char) :=
  (tryLit "import".toList s).bind fun s1 =>
  wsPlus (fun s2 => wordDotPlusCap (fun cap s3 => some (cap, s3)) s2) s1

/-- Python pattern two: the from keyword, a dotted name, then the import
keyword. -/
def pyFromTry (s : List Char) : Option (List Char × List Char) :=
  (tryLit "from".toList s).bind fun s1 =>
  wsPlus (fun s2 =>
    wordDotPlusCap (fun cap s3 =>
      wsPlus (fun s4 => (tryLit "import".toList s4).bind fun s5 => some (cap, s5)) s3) s2) s1

/-- Left-to-right scan collecting the group-one captures of every
non-overlapping match, resuming after each match, like `re.findall`.
Every matcher above starts with a nonempty literal, so each match
consumes at least one character and the length fuel is never exhausted. -/
def findAllAux (tryM : List Char → Option (List Char × List Char)) :
    Nat → List Char → List String
  | 0, _ => []
  | fuel + 1, s =>
    match s with
    | [] => []
    | c :: rest =>
      match tryM (c :: rest) with
      | some (cap, after) => String.mk cap :: findAllAux tryM fuel after
      | none => findAllAux tryM fuel rest

def findAll (tryM : List Char → Option (List Char × List Char)) (content : String) :
    List String :=
  findAllAux tryM content.toList.length content.toList

/-! ### Data model -/

structure ImportInfo where
  path : String
  type : String
deriving DecidableEq, Repr

structure CodebaseStats where
  total_files : Nat
  total_directories : Nat
  total_size_bytes : Nat
  file_types : List (String × Nat)
deriving DecidableEq, Repr

structure CodebaseLink where
  source : String
  target : String
  type : String
deriving DecidableEq, Repr

/-!
FileNode from the source, with its recursive children list rendered
as a mutually defined list so that recursion stays structural.  The
children and the import list are kept as plain lists (nil standing for
the Python None: the code only ever tests them for truthiness, which
cannot tell the two apart), timestamps as naturals.
-/
mutual
inductive FileNode where
| mk : String → String → String → Nat → Option Nat → FileNodeList → List ImportInfo →
    Option String → FileNode
deriving DecidableEq, Repr
inductive FileNodeList where
| nil : FileNodeList
| cons : FileNode → FileNodeList → FileNodeList
deriving DecidableEq, Repr
end

def FileNode.name : FileNode → String
  | .mk n _ _ _ _ _ _ _ => n

def FileNode.path : FileNode → String
  | .mk _ p _ _ _ _ _ _ => p

def FileNode.type : FileNode → String
  | .mk _ _ t _ _ _ _ _ => t

def FileNode.size : FileNode → Nat
  | .mk _ _ _ s _ _ _ _ => s

def FileNode.last_modified : FileNode → Option Nat
  | .mk _ _ _ _ lm _ _ _ => lm

def FileNode.childrenL : FileNode → FileNodeList
  | .mk _ _ _ _ _ cs _ _ => cs

def FileNode.imports : FileNode → List ImportInfo
  | .mk _ _ _ _ _ _ im _ => im

def FileNode.language : FileNode → Option String
  | .mk _ _ _ _ _ _ _ lg => lg

def FileNodeList.toList : FileNodeList → List FileNode
  | .nil => []
  | .cons c cs => c :: cs.toList

def FileNodeList.ofList : List FileNode → FileNodeList
  | [] => .nil
  | c :: cs => .cons c (FileNodeList.ofList cs)

/-- Children of a node as a plain list. -/
def FileNode.children (n : FileNode) : List FileNode :=
  n.childrenL.toList

structure CodebaseResponse where
  structure_node : FileNode
  stats : CodebaseStats
  links : List CodebaseLink
deriving DecidableEq, Repr

/-! ### `extract_imports` -/

/-- Path normalization applied to one matched JS or TS module path
(the body of the per-match conditional chain in the source). -/
def jsNormalizeImport (file_path root_path import_path import_type : String) : ImportInfo :=
  if strStartsWith import_path "components/" then
    { path := "/ui/src/" ++ import_path, type := import_type }
  else if strStartsWith import_path "utils/" then
    { path := "/ui/src/" ++ import_path, type := import_type }
  else if strStartsWith import_path "@/" then
    { path := "/ui/src/" ++ strDrop import_path 2, type := import_type }
  else if ¬ (strStartsWith import_path "." ∨ strStartsWith import_path "/") then
    if import_path ∈ ["react", "react-dom", "react-router-dom", "app", "brain"] then
      { path := import_path, type := "external" }
    else
      { path := import_path, type := import_type }
  else
    if strStartsWith import_path "." then
      let source_dir := pyDirname (pyJoin root_path (lstripSlashes file_path))
      let full_path :=
        if strStartsWith import_path "./" then
          normpath (pyJoin source_dir (strDrop import_path 2))
        else if strStartsWith import_path "../" then normpath (pyJoin source_dir import_path)
        else normpath (pyJoin (pyDirname file_path) import_path)
      if strStartsWith full_path root_path then
        { path := strDrop full_path root_path.length, type := import_type }
      else
        { path := import_path, type := import_type }
    else
      { path := import_path, type := import_type }

/-- Post-processing applied to one matched Python dotted module name. -/
def pyNormalizeImport (matched import_type : String) : ImportInfo :=
  if matched = "app" ∨ strStartsWith matched "app." then
    let module_path := if strStartsWith matched "app." then strDrop matched 4 else ""
    if strStartsWith module_path "apis." then
      { path := "/src/app/apis/" ++ strDrop module_path 5, type := import_type }
    else
      { path := matched, type := "internal" }
  else if matched ∈ ["databutton", "fastapi", "pydantic"] then
    { path := matched, type := "external" }
  else
    { path := matched, type := import_type }

def js_import_patterns : List ((List Char → Option (List Char × List Char)) × String) :=
  [(js1Try, "module"), (js2Try, "direct"), (js3Try, "require")]

def py_import_patterns : List ((List Char → Option (List Char × List Char)) × String) :=
  [(pyImportTry, "module"), (pyFromTry, "from")]

/-- Faithful `extract_imports`: dispatch on the extension, run each
pattern over the whole content in order, and normalize every nonempty
captured path. -/
def extract_imports (file_path content root_path : String) : List ImportInfo :=
  let ext := get_file_extension file_path
  if ext ∈ ["js", "jsx", "ts", "tsx"] then
    js_import_patterns.flatMap fun pat =>
      (findAll pat.1 content).flatMap fun import_path =>
        if import_path ≠ "" then [jsNormalizeImport file_path root_path import_path pat.2]
        else []
  else if ext = "py" then
    py_import_patterns.flatMap fun pat =>
      (findAll pat.1 content).flatMap fun matched =>
        if matched ≠ "" then [pyNormalizeImport matched pat.2]
        else []
  else []

/-! ### Filesystem model and `scan_directory`

The filesystem is a function from relative component paths (relative to
the scan base directory) to metadata.  Unlike a finite tree, such a
function can describe unboundedly deep or cyclic directory structures,
so termination of the walk really does rest on the depth argument.  A
directory whose entry list is `none` raises on listing (the
PermissionError branch); a file whose accessible flag is false raises on
`getsize`/`getmtime`; a file whose content is `none` raises on open. -/

inductive FSMeta where
| file : Nat → Nat → Option String → Bool → FSMeta
| dir : Option (List String) → Nat → FSMeta
deriving DecidableEq, Repr

def FSMeta.mtime : FSMeta → Nat
  | .file _ mt _ _ => mt
  | .dir _ mt => mt

abbrev FS : Type := List String → Option FSMeta

abbrev FMap := List (String × FileNode)

/-- Python dictionary assignment: overwrite in place or append. -/
def mapInsert (m : FMap) (k : String) (v : FileNode) : FMap :=
  if m.any (fun p => p.1 = k) then m.map (fun p => if p.1 = k then (k, v) else p)
  else m ++ [(k, v)]

def excluded_dirs : List String :=
  [".git", "node_modules", "__pycache__", "venv", ".venv", "dist", "build", ".next", ".idea"]

/-- Basename of the scan target: basename of the current path, falling
back to the basename of the base path when that is empty. -/
def targetBasename (base_path : String) (cur : List String) : String :=
  let b := pyBasename (pathStr cur)
  if b = "" then pyBasename base_path else b

/-- Node display name: the target basename with the init-file special
case for API directories. -/
def nodeName (base_path : String) (cur : List String) : String :=
  let name0 := targetBasename base_path cur
  if name0 = "__init__.py" ∧ strContains (pathStr cur) "/apis/" then
    pyBasename (pyDirname (pathStr cur)) ++ ".py"
  else name0

/-- Child loop of the directory branch: recurse, collect returned nodes,
accumulate nonzero sizes, and register file children in the map. -/
def scan_children (recur : List String → FMap → Option FileNode × FMap) (cur : List String) :
    List String → FMap → List FileNode × Nat × FMap
  | [], m => ([], 0, m)
  | it :: rest, m =>
    match recur (cur ++ [it]) m with
    | (some child, m1) =>
      let m2 := if child.type = "file" then mapInsert m1 child.path child else m1
      let r := scan_children recur cur rest m2
      (child :: r.1, (if child.size ≠ 0 then child.size else 0) + r.2.1, r.2.2)
    | (none, m1) => scan_children recur cur rest m1

/-- Faithful `scan_directory`, by structural recursion on the depth. -/
def scan_directory (fs : FS) (base_path : String) :
    Nat → List String → FMap → Option FileNode × FMap
  | 0, _, m => (none, m)
  | max_depth + 1, cur, m =>
    match fs cur with
    | none => (none, m)
    | some meta =>
      let current_path := pathStr cur
      let name := nodeName base_path cur
      if name ∈ excluded_dirs then
        (some (FileNode.mk name (if current_path = "" then "/" else current_path) "directory" 0
          (some meta.mtime) .nil [] none), m)
      else
        match meta with
        | .dir entries mt =>
          let items := (match entries with | some its => its | none => []).take 100
          let r := scan_children
            (fun cur2 m2 => scan_directory fs base_path max_depth cur2 m2) cur items m
          (some (FileNode.mk name (if current_path = "" then "/" else current_path) "directory"
            r.2.1 (some mt) (FileNodeList.ofList r.1) [] none), r.2.2)
        | .file size mt content accessible =>
          if accessible then
            let full_path := pyJoin base_path current_path
            let file_language := get_language full_path
            let importList :=
              if get_file_extension full_path ∈ ["js", "jsx", "ts", "tsx", "py"] then
                match content with
                | some text => extract_imports current_path text base_path
                | none => []
              else []
            let node := FileNode.mk name current_path "file" size (some mt) .nil importList
              (some file_language)
            (some node, mapInsert m current_path node)
          else (none, m)

/-! ### `calculate_stats` -/

/-- Python dictionary counter bump, preserving insertion order. -/
def bumpFileType (fts : List (String × Nat)) (k : String) : List (String × Nat) :=
  if fts.any (fun p => p.1 = k) then fts.map (fun p => if p.1 = k then (p.1, p.2 + 1) else p)
  else fts ++ [(k, 1)]

mutual
def stats_node : FileNode → CodebaseStats → CodebaseStats
  | .mk _ p t s _ cs _ _, acc =>
    if t = "directory" then
      stats_list cs { acc with total_directories := acc.total_directories + 1 }
    else
      let ext := get_file_extension p
      { acc with
        total_files := acc.total_files + 1,
        total_size_bytes := acc.total_size_bytes + s,
        file_types := bumpFileType acc.file_types (if ext ≠ "" then ext else "no_extension") }
def stats_list : FileNodeList → CodebaseStats → CodebaseStats
  | .nil, acc => acc
  | .cons c cs, acc => stats_list cs (stats_node c acc)
end

/-- Faithful `calculate_stats`, the traverse starting from zeroed counters. -/
def calculate_stats (structure_node : FileNode) : CodebaseStats :=
  stats_node structure_node
    { total_files := 0, total_directories := 0, total_size_bytes := 0, file_types := [] }

/-! ### Specification-side tree measures -/

/-!
allNodesList: every node reachable from the root through children lists,
the root included, in preorder.
-/
mutual
def allNodesList : FileNode → List FileNode
  | .mk nm p t s lm cs im lg =>
    FileNode.mk nm p t s lm cs im lg :: allNodesLists cs
def allNodesLists : FileNodeList → List FileNode
  | .nil => []
  | .cons c cs => allNodesList c ++ allNodesLists cs
end

/-- Sum of the sizes of the nodes of a list. -/
def sumSizes (l : List FileNode) : Nat :=
  (l.map FileNode.size).sum

/-!
wfTree: every node is typed file or directory and file nodes carry no
children.
-/
mutual
def wfTree : FileNode → Bool
  | .mk _ _ t _ _ cs _ _ =>
    (t = "file" || t = "directory") && (t = "file" → cs = .nil) && wfForest cs
def wfForest : FileNodeList → Bool
  | .nil => true
  | .cons c cs => wfTree c && wfForest cs
end

/-! ### Link building (`/scan`, second half) -/

/-- Re-open a scanned relative path and read its text, where the open is
against the scan base joined with the stored relative path; a missing
entry, a directory, an unreadable file or an inaccessible one raises and
yields none. -/
def readFS (fs : FS) (file_path : String) : Option String :=
  match fs (splitPath file_path) with
  | some (.file _ _ (some text) true) => some text
  | _ => none

/-- First link pass: one edge per declared non-external import of every
file in the map, in map insertion order. -/
def linkPass1 (m : FMap) : List CodebaseLink :=
  m.flatMap fun p =>
    p.2.imports.flatMap fun imp =>
      if imp.type = "external" then []
      else [{ source := p.1, target := imp.path, type := imp.type }]

def frontendExt (file_path : String) : Bool :=
  strEndsWith file_path ".tsx" || strEndsWith file_path ".ts" || strEndsWith file_path ".jsx" ||
    strEndsWith file_path ".js"

/-- Second link pass: for frontend files importing the bare external
brain module, substring-search the re-read text for the two fixed call
sites and append one fixed api-usage edge per hit. -/
def linkPass2 (m : FMap) (fs : FS) : List CodebaseLink :=
  m.flatMap fun p =>
    if frontendExt p.1 ∧ p.2.imports ≠ [] then
      if p.2.imports.any (fun imp => imp.path = "brain" ∧ imp.type = "external") then
        match readFS fs p.1 with
        | some text =>
          (if strContains text "brain.scan_codebase" then
            [{ source := p.1, target := "src/app/apis/codebase", type := "api-usage" }]
          else []) ++
          (if strContains text "brain.get_codebase_history" then
            [{ source := p.1, target := "src/app/apis/codebase", type := "api-usage" }]
          else [])
        | none => []
      else []
    else []

/-- The sequential appends of the two link loops form one list. -/
def buildLinks (m : FMap) (fs : FS) : List CodebaseLink :=
  linkPass1 m ++ linkPass2 m fs

/-! ### The `/scan` handler -/

/-- One category scan (the body of the loop over `category_paths`): scan
when the target exists and is a directory, then copy the size and the
children of the returned node onto the category. -/
def scanCat (fs : FS) (path : List String) (m : FMap) : Nat × List FileNode × FMap :=
  match fs path with
  | some (.dir _ _) =>
    match scan_directory fs "/app" 5 path m with
    | (some node, m1) => (node.size, node.children, m1)
    | (none, m1) => (0, [], m1)
  | _ => (0, [], m)

def mkCategory (name path : String) (size : Nat) (children : List FileNode) : FileNode :=
  FileNode.mk name path "directory" size none (FileNodeList.ofList children) [] none

/-- Placeholder entry added under the two asset categories. -/
def placeholderFor (cat : FileNode) : FileNode :=
  FileNode.mk ("(No " ++ cat.name ++ ")") cat.path "file" 100 none .nil [] (some "Text")

/-- Category append step: categories with children go in as they are,
the two asset categories receive the placeholder child, the rest are
dropped. -/
def appendCat (cat : FileNode) : List FileNode :=
  if cat.children ≠ [] then [cat]
  else if cat.name = "Media (Public)" ∨ cat.name = "Internal Storage" then
    [FileNode.mk cat.name cat.path cat.type cat.size cat.last_modified
      (FileNodeList.ofList [placeholderFor cat]) cat.imports cat.language]
  else []

/-- Root structure and file map of a scan: the four category scans run in
order against the fixed base, sharing one map, and the root accumulates
the scanned sizes. -/
def computeScanCore (fs : FS) : FileNode × FMap :=
  let r1 := scanCat fs ["ui", "src", "pages"] []
  let r2 := scanCat fs ["ui", "src", "components"] r1.2.2
  let r3 := scanCat fs ["ui", "src", "utils"] r2.2.2
  let r4 := scanCat fs ["src", "app", "apis"] r3.2.2
  let childList :=
    appendCat (mkCategory "Pages" "/ui/src/pages" r1.1 r1.2.1) ++
    appendCat (mkCategory "UI Components" "/ui/src/components" r2.1 r2.2.1) ++
    appendCat (mkCategory "UI Files" "/ui/src/utils" r3.1 r3.2.1) ++
    appendCat (mkCategory "APIs" "/src/app/apis" r4.1 r4.2.1) ++
    appendCat (mkCategory "Media (Public)" "/static-assets" 0 []) ++
    appendCat (mkCategory "Internal Storage" "/storage" 0 [])
  (FileNode.mk "Taskflow App" "/" "directory" (r1.1 + r2.1 + r3.1 + r4.1) none
    (FileNodeList.ofList childList) [] none, r4.2.2)

/-- The try-block of the `/scan` handler up to response construction:
walk, guard against an empty root, aggregate stats, build links. -/
def computeScan (fs : FS) : Except String CodebaseResponse :=
  let core := computeScanCore fs
  if core.1.children = [] then Except.error "Failed to scan codebase structure"
  else
    Except.ok
      { structure_node := core.1, stats := calculate_stats core.1,
        links := buildLinks core.2 fs }

/-! ### Snapshot store and the two endpoints -/

structure HTTPError where
  status_code : Nat
  detail : String
deriving DecidableEq, Repr

abbrev Store : Type := List (String × CodebaseResponse)

def storeLookup (st : Store) (k : String) : Option CodebaseResponse :=
  (st.find? (fun p => p.1 = k)).map (fun p => p.2)

def storePut (st : Store) (k : String) (v : CodebaseResponse) : Store :=
  if st.any (fun p => p.1 = k) then st.map (fun p => if p.1 = k then (k, v) else p)
  else st ++ [(k, v)]

/-- Tail of the `/scan` handler: on success of the whole computation,
persist the snapshot and return the response; an exception anywhere in
the try-block reaches the except-clause instead, which re-raises as a
server error without touching the store.  The body argument stands for
the try-block computation, whose pure successful case is `computeScan`;
an error value stands for any exception the Python runtime can raise
before the store write. -/
def scan_codebase_handler (body : Except String CodebaseResponse) (store : Store) :
    Except HTTPError CodebaseResponse × Store :=
  match body with
  | .ok resp => (.ok resp, storePut store "codebase-snapshot-latest" resp)
  | .error e => (.error { status_code := 500, detail := "Error scanning codebase: " ++ e }, store)

/-- The `/scan` endpoint over the pure filesystem model. -/
def scan_codebase (fs : FS) (store : Store) : Except HTTPError CodebaseResponse × Store :=
  scan_codebase_handler (computeScan fs) store

inductive HistoryResponse where
| message : String → HistoryResponse
| snapshot : CodebaseResponse → HistoryResponse
deriving DecidableEq, Repr

/-- The `/history` endpoint: absent snapshot yields the fixed message as
a normal response, a present one is returned verbatim.  The stored value
is a response object, always truthy as a Python dictionary, so the
falsiness test in the source coincides with absence. -/
def get_codebase_history (store : Store) : Except HTTPError HistoryResponse :=
  match storeLookup store "codebase-snapshot-latest" with
  | none => .ok (.message "No codebase snapshot available. Please scan first.")
  | some snap => .ok (.snapshot snap)

/-! ## Claim theorems -/

/-- C1 counterexample: on the file `a.py` with the single from-statement,
`extract_imports` does not return exactly one ImportInfo — the
plain-import pattern also matches the tail of the from-statement, so
the result has two entries. -/
theorem c1_counterexample :
    extract_imports "a.py" "from app.apis.codebase import scan_codebase" "/app" =
      [{ path := "scan_codebase", type := "module" },
       { path := "/src/app/apis/codebase", type := "from" }] ∧
    (extract_imports "a.py" "from app.apis.codebase import scan_codebase" "/app").length ≠ 1 := by
  constructor
  · decide
  · decide

/-- C1 amended: on `a.py` containing the from-statement, `extract_imports`
returns exactly two ImportInfos: a spurious `(scan_codebase, module)` entry
produced by the plain import pattern matching inside the from-statement,
followed by the claimed entry with kind `from` and the fixed internal API
path for `codebase`. -/
theorem c1_amended :
    extract_imports "a.py" "from app.apis.codebase import scan_codebase" "/app" =
      [{ path := "scan_codebase", type := "module" },
       { path := "/src/app/apis/codebase", type := "from" }] := by
  decide

/-- C4: the `/scan` handler writes the snapshot key only on success of the
whole computation; any failure leaves the store exactly as it was, and a
success overwrites the single fixed key. -/
theorem c4_snapshot_only_after_success :
    ∀ (body : Except String CodebaseResponse) (store : Store),
      (∀ e, body = Except.error e → (scan_codebase_handler body store).2 = store) ∧
      (∀ resp, body = Except.ok resp →
        (scan_codebase_handler body store).2 = storePut store "codebase-snapshot-latest" resp) := by
  intro body store
  constructor
  · intro e he
    subst he
    rfl
  · intro resp hr
    subst hr
    rfl

/-- C4 witness at a concrete failing body and nonempty store. -/
theorem c4_witness :
    (scan_codebase_handler (Except.error "boom")
      [("codebase-snapshot-latest", { structure_node := FileNode.mk "r" "/" "directory" 0 none .nil [] none, stats := { total_files := 0, total_directories := 1, total_size_bytes := 0, file_types := [] }, links := [] })]).2 =
      [("codebase-snapshot-latest", { structure_node := FileNode.mk "r" "/" "directory" 0 none .nil [] none, stats := { total_files := 0, total_directories := 1, total_size_bytes := 0, file_types := [] }, links := [] })] :=
  (c4_snapshot_only_after_success (Except.error "boom") _).1 "boom" rfl

/-- C5: with no stored snapshot the `/history` endpoint returns the fixed
no-snapshot message as a normal response (not an error), and with a stored
snapshot it returns that snapshot verbatim. -/
theorem c5_history_message_or_snapshot :
    ∀ store : Store,
      (storeLookup store "codebase-snapshot-latest" = none →
        get_codebase_history store =
          Except.ok (HistoryResponse.message "No codebase snapshot available. Please scan first.")) ∧
      (∀ snap, storeLookup store "codebase-snapshot-latest" = some snap →
        get_codebase_history store = Except.ok (HistoryResponse.snapshot snap)) := by
  intro store
  constructor
  · intro h
    simp [get_codebase_history, h]
  · intro snap h
    simp [get_codebase_history, h]

/-- C5 witness at the empty store. -/
theorem c5_witness :
    get_codebase_history [] =
      Except.ok (HistoryResponse.message "No codebase snapshot available. Please scan first.") :=
  (c5_history_message_or_snapshot []).1 rfl

/-- Helper: an excluded basename short-circuits the walk into the empty
placeholder directory node, for any metadata at the target, leaving the
map untouched. -/
theorem scan_excluded_eq (fs : FS) (base_path : String) (cur : List String) (md : Nat)
    (m : FMap) (meta : FSMeta) (hfs : fs cur = some meta)
    (hex : targetBasename base_path cur ∈ excluded_dirs) :
    scan_directory fs base_path (md + 1) cur m =
      (some (FileNode.mk (targetBasename base_path cur)
        (if pathStr cur = "" then "/" else pathStr cur) "directory" 0
        (some meta.mtime) .nil [] none), m) := by
  have hne : targetBasename base_path cur ≠ "__init__.py" := by
    have hall : ∀ s ∈ excluded_dirs, s ≠ "__init__.py" := by decide
    exact hall _ hex
  have hname : nodeName base_path cur = targetBasename base_path cur := by
    unfold nodeName
    simp [hne]
  simp [scan_directory, hfs, hname, hex]

/-- C6: a scan target that exists, at positive remaining depth, whose
basename is one of the excluded names, yields the placeholder directory
node of size zero with no children, whatever metadata and contents the
target has, and the walk does not descend (the result depends only on the
modification time of the target, and the file map is unchanged). -/
theorem c6_excluded_placeholder :
    ∀ (fs : FS) (base_path : String) (cur : List String) (md : Nat) (m : FMap) (meta : FSMeta),
      fs cur = some meta →
      targetBasename base_path cur ∈ excluded_dirs →
      scan_directory fs base_path (md + 1) cur m =
        (some (FileNode.mk (targetBasename base_path cur)
          (if pathStr cur = "" then "/" else pathStr cur) "directory" 0
          (some meta.mtime) .nil [] none), m) := by
  intro fs base_path cur md m meta hfs hex
  exact scan_excluded_eq fs base_path cur md m meta hfs hex

/-- C6 witness: a directory literally named `build` with contents, at
depth five. -/
theorem c6_witness :
    scan_directory
      (fun p => if p = ["build"] then some (FSMeta.dir (some ["x", "y"]) 4) else none)
      "/app" 5 ["build"] [] =
      (some (FileNode.mk "build" "build" "directory" 0 (some 4) .nil [] none), []) := by
  have h := c6_excluded_placeholder
    (fun p => if p = ["build"] then some (FSMeta.dir (some ["x", "y"]) 4) else none)
    "/app" ["build"] 4 [] (FSMeta.dir (some ["x", "y"]) 4) (by decide) (by decide)
  simpa using h

/-- C9: the excluded-name check runs before the file or directory
discrimination, so a regular file whose basename is excluded is also
returned as a directory-typed placeholder of size zero with no children;
its size is not read (the result does not mention it) and it is not
registered in the path-to-node map. -/
theorem c9_excluded_file_placeholder :
    ∀ (fs : FS) (base_path : String) (cur : List String) (md : Nat) (m : FMap)
      (size mt : Nat) (text : Option String) (accessible : Bool),
      fs cur = some (FSMeta.file size mt text accessible) →
      targetBasename base_path cur ∈ excluded_dirs →
      scan_directory fs base_path (md + 1) cur m =
        (some (FileNode.mk (targetBasename base_path cur)
          (if pathStr cur = "" then "/" else pathStr cur) "directory" 0
          (some mt) .nil [] none), m) := by
  intro fs base_path cur md m size mt text accessible hfs hex
  exact scan_excluded_eq fs base_path cur md m _ hfs hex

/-- C9 witness: a regular 123-byte file literally named `dist`. -/
theorem c9_witness :
    scan_directory
      (fun p => if p = ["a", "dist"] then some (FSMeta.file 123 7 (some "hello") true) else none)
      "/app" 4 ["a", "dist"] [] =
      (some (FileNode.mk "dist" "a/dist" "directory" 0 (some 7) .nil [] none), []) := by
  have h := c9_excluded_file_placeholder
    (fun p => if p = ["a", "dist"] then some (FSMeta.file 123 7 (some "hello") true) else none)
    "/app" ["a", "dist"] 3 [] 123 7 (some "hello") true (by decide) (by decide)
  simpa using h

/-- Helper: the child loop only probes the recursion it is given at the
immediate child paths, so pointwise equal recursions give equal results. -/
theorem scan_children_congr (recur recurB : List String → FMap → Option FileNode × FMap)
    (cur : List String) :
    ∀ (items : List String) (m : FMap),
      (∀ it m2, it ∈ items → recur (cur ++ [it]) m2 = recurB (cur ++ [it]) m2) →
      scan_children recur cur items m = scan_children recurB cur items m := by
  intro items
  induction items with
  | nil => intro m h; rfl
  | cons it rest ih =>
    intro m h
    have hit : recur (cur ++ [it]) m = recurB (cur ++ [it]) m :=
      h it m (List.mem_cons_self it rest)
    simp only [scan_children, hit]
    cases hres : recurB (cur ++ [it]) m with
    | mk onode m1 =>
      cases onode with
      | none => exact ih m1 (fun i m2 hi => h i m2 (List.mem_cons_of_mem it hi))
      | some child =>
        have hrest := ih (if child.type = "file" then mapInsert m1 child.path child else m1)
          (fun i m2 hi => h i m2 (List.mem_cons_of_mem it hi))
        simp only [hrest]

/-- C10: the walk is total over the filesystem model, which is a function
from paths to metadata and therefore also describes unboundedly deep or
cyclic (symlinked) directory structures.  At depth zero the walk returns
nothing and leaves the map untouched; and the whole result is already
determined by the filesystem values on paths shorter than the current
depth budget allows, because every recursive call decrements the depth —
two filesystems agreeing below the bound give identical walks. -/
theorem c10_termination_depth_bound :
    (∀ (fs : FS) (base_path : String) (cur : List String) (m : FMap),
      scan_directory fs base_path 0 cur m = (none, m)) ∧
    (∀ (md : Nat) (fs fsB : FS) (base_path : String) (cur : List String) (m : FMap),
      (∀ p : List String, p.length < cur.length + md → fs p = fsB p) →
      scan_directory fs base_path md cur m = scan_directory fsB base_path md cur m) := by
  constructor
  · intro fs base_path cur m
    rfl
  · intro md
    induction md with
    | zero => intro fs fsB base_path cur m h; rfl
    | succ md ih =>
      intro fs fsB base_path cur m h
      have hcur : fs cur = fsB cur := h cur (by omega)
      simp only [scan_directory]
      rw [hcur]
      cases hmeta : fsB cur with
      | none => rfl
      | some meta =>
        cases meta with
        | dir entries mt =>
          have hsc := scan_children_congr
            (fun c2 m2 => scan_directory fs base_path md c2 m2)
            (fun c2 m2 => scan_directory fsB base_path md c2 m2) cur
            ((match entries with | some its => its | none => []).take 100) m
            (fun it m2 _ => ih fs fsB base_path (cur ++ [it]) m2
              (fun p hp => h p (by simp [List.length_append] at hp ⊢; omega)))
          simp only [hsc]
        | file size mt text accessible => rfl

/-- C10 witness: depth zero at a concrete filesystem, and agreement at
depth one between two concretely different filesystems that coincide on
the only probed path. -/
theorem c10_witness :
    scan_directory (fun _ => some (FSMeta.dir (some ["x"]) 0)) "/app" 0 [] [] = (none, []) ∧
    scan_directory (fun _ => some (FSMeta.dir (some ["x"]) 0)) "/app" 1 [] [] =
      scan_directory
        (fun p => if p.length = 0 then some (FSMeta.dir (some ["x"]) 0) else none)
        "/app" 1 [] [] := by
  constructor
  · exact c10_termination_depth_bound.1 (fun _ => some (FSMeta.dir (some ["x"]) 0)) "/app" [] []
  · exact c10_termination_depth_bound.2 1 (fun _ => some (FSMeta.dir (some ["x"]) 0))
      (fun p => if p.length = 0 then some (FSMeta.dir (some ["x"]) 0) else none) "/app" [] []
      (fun p hp => by
        have hlt : p.length < 1 := by simpa using hp
        have hp0 : p = [] := List.length_eq_zero.mp (by omega)
        subst hp0
        rfl)

/-- Helper: on well-formed trees the traverse adds, to each counter of
the accumulator, the corresponding count over all reachable nodes. -/
theorem stats_totals :
    ∀ n : FileNode, ∀ acc : CodebaseStats, wfTree n = true →
      (stats_node n acc).total_files =
        acc.total_files + ((allNodesList n).filter fun x => x.type = "file").length ∧
      (stats_node n acc).total_directories =
        acc.total_directories + ((allNodesList n).filter fun x => x.type = "directory").length ∧
      (stats_node n acc).total_size_bytes =
        acc.total_size_bytes +
          (((allNodesList n).filter fun x => x.type = "file").map FileNode.size).sum := by
  intro n
  induction n using FileNode.rec (motive_2 := fun l => ∀ acc : CodebaseStats,
      wfForest l = true →
      (stats_list l acc).total_files =
        acc.total_files + ((allNodesLists l).filter fun x => x.type = "file").length ∧
      (stats_list l acc).total_directories =
        acc.total_directories + ((allNodesLists l).filter fun x => x.type = "directory").length ∧
      (stats_list l acc).total_size_bytes =
        acc.total_size_bytes +
          (((allNodesLists l).filter fun x => x.type = "file").map FileNode.size).sum) with
  | mk nm p t s lm cs im lg ih =>
    intro acc hwf
    simp only [wfTree, Bool.and_eq_true, Bool.or_eq_true, decide_eq_true_eq] at hwf
    obtain ⟨⟨htype, himpl⟩, hfor⟩ := hwf
    by_cases ht : t = "directory"
    · subst ht
      obtain ⟨f2, d2, s2⟩ := ih { acc with total_directories := acc.total_directories + 1 } hfor
      simp [stats_node, allNodesList, FileNode.type, List.filter_cons] at f2 d2 s2 ⊢
      omega
    · have htf : t = "file" := by tauto
      subst htf
      have hcs : cs = FileNodeList.nil := himpl rfl
      subst hcs
      simp [stats_node, allNodesList, allNodesLists, FileNode.type, FileNode.size, ht]
  | nil =>
    rename_i acc h
    simp [stats_list, allNodesLists]
  | cons c cs ihc ihcs =>
    rename_i acc hwf
    simp only [wfForest, Bool.and_eq_true] at hwf
    obtain ⟨h1, h2⟩ := hwf
    obtain ⟨f1, d1, s1⟩ := ihc acc h1
    obtain ⟨f2, d2, s2⟩ := ihcs (stats_node c acc) h2
    simp only [stats_list, allNodesLists, List.filter_append, List.length_append,
      List.map_append, List.sum_append]
    refine ⟨?_, ?_, ?_⟩ <;> omega

/-- Helper: well-formed trees only contain file and directory nodes. -/
theorem allNodes_types :
    ∀ n : FileNode, wfTree n = true → ∀ x ∈ allNodesList n,
      x.type = "file" ∨ x.type = "directory" := by
  intro n
  induction n using FileNode.rec (motive_2 := fun l => wfForest l = true →
      ∀ x ∈ allNodesLists l, x.type = "file" ∨ x.type = "directory") with
  | mk nm p t s lm cs im lg ih =>
    intro hwf x hx
    simp only [wfTree, Bool.and_eq_true, Bool.or_eq_true, decide_eq_true_eq] at hwf
    obtain ⟨⟨htype, _⟩, hfor⟩ := hwf
    simp only [allNodesList, List.mem_cons] at hx
    rcases hx with rfl | hx
    · simpa [FileNode.type] using htype
    · exact ih hfor x hx
  | nil =>
    rename_i x hx
    simp [allNodesLists] at hx
  | cons c cs ihc ihcs =>
    rename_i hwf x hx
    simp only [wfForest, Bool.and_eq_true] at hwf
    simp only [allNodesLists, List.mem_append] at hx
    rcases hx with hx | hx
    · exact ihc hwf.1 x hx
    · exact ihcs hwf.2 x hx

/-- Helper: the two type filters partition a list of typed nodes. -/
theorem length_filter_partition :
    ∀ l : List FileNode, (∀ x ∈ l, x.type = "file" ∨ x.type = "directory") →
      (l.filter fun x => x.type = "file").length +
        (l.filter fun x => x.type = "directory").length = l.length := by
  intro l
  induction l with
  | nil => intro h; simp
  | cons a l ih =>
    intro h
    have ha := h a (List.mem_cons_self a l)
    have hl := ih (fun x hx => h x (List.mem_cons_of_mem a hx))
    rcases ha with ha | ha <;> simp [List.filter_cons, ha] <;> omega

/-- A degenerate typed tree: a file node with a file child. -/
def c3_tree : FileNode :=
  FileNode.mk "a" "a" "file" 5 none
    (.cons (FileNode.mk "b" "b" "file" 7 none .nil [] none) .nil) [] none

/-- C3 counterexample: a tree whose nodes are all typed `file` (so it
satisfies the claim hypothesis) but whose root file has a child; the
traverse never descends below a file node, so both stated equalities
fail against the reachable-node set. -/
theorem c3_counterexample :
    ((allNodesList c3_tree).all fun x => x.type = "file" || x.type = "directory") = true ∧
    (calculate_stats c3_tree).total_files + (calculate_stats c3_tree).total_directories ≠
      (allNodesList c3_tree).length ∧
    (calculate_stats c3_tree).total_size_bytes ≠
      (((allNodesList c3_tree).filter fun x => x.type = "file").map FileNode.size).sum := by
  refine ⟨by decide, by decide, by decide⟩

/-- C3 amended: for trees whose nodes are all typed file or directory
AND whose file nodes have no children (which holds for every tree the
program builds), `calculate_stats` satisfies the claim: files plus
directories equals the number of reachable nodes (root included), and
the byte total is the sum of the sizes of reachable file nodes. -/
theorem c3_amended :
    ∀ n : FileNode, wfTree n = true →
      (calculate_stats n).total_files + (calculate_stats n).total_directories =
        (allNodesList n).length ∧
      (calculate_stats n).total_size_bytes =
        (((allNodesList n).filter fun x => x.type = "file").map FileNode.size).sum := by
  intro n hwf
  obtain ⟨hf, hd, hs⟩ := stats_totals n
    { total_files := 0, total_directories := 0, total_size_bytes := 0, file_types := [] } hwf
  have hpart := length_filter_partition (allNodesList n) (allNodes_types n hwf)
  unfold calculate_stats
  simp only at hf hd hs
  constructor
  · omega
  · simpa using hs

/-- A concrete well-formed tree for the C3 witness. -/
def c3_tree_ok : FileNode :=
  FileNode.mk "r" "/" "directory" 12 none
    (.cons (FileNode.mk "a.py" "a.py" "file" 5 none .nil [] (some "Python"))
      (.cons (FileNode.mk "d" "d" "directory" 7 none
        (.cons (FileNode.mk "b.ts" "d/b.ts" "file" 7 none .nil [] (some "TypeScript")) .nil)
        [] none) .nil)) [] none

/-- C3 witness: the amended claim applied to a concrete two-level tree. -/
theorem c3_witness :
    (calculate_stats c3_tree_ok).total_files + (calculate_stats c3_tree_ok).total_directories =
      (allNodesList c3_tree_ok).length ∧
    (calculate_stats c3_tree_ok).total_size_bytes =
      (((allNodesList c3_tree_ok).filter fun x => x.type = "file").map FileNode.size).sum :=
  c3_amended c3_tree_ok (by decide)

/-- C8: any file of the map with a frontend extension, a declared bare
external brain import, and readable content containing the literal
substring `brain.scan_codebase`, contributes the fixed api-usage edge in
the appended second pass, in addition to one first-pass edge per declared
non-external import. -/
theorem c8_brain_api_edge :
    ∀ (m : FMap) (fs : FS) (fp : String) (node : FileNode) (text : String),
      (fp, node) ∈ m →
      frontendExt fp = true →
      ({ path := "brain", type := "external" } : ImportInfo) ∈ node.imports →
      readFS fs fp = some text →
      strContains text "brain.scan_codebase" = true →
      ∃ l1 l2, buildLinks m fs = l1 ++ l2 ∧
        ({ source := fp, target := "src/app/apis/codebase", type := "api-usage" } :
          CodebaseLink) ∈ l2 ∧
        ∀ imp ∈ node.imports, imp.type ≠ "external" →
          ({ source := fp, target := imp.path, type := imp.type } : CodebaseLink) ∈ l1 := by
  intro m fs fp node text hmem hfront hbrain hread hcontains
  refine ⟨linkPass1 m, linkPass2 m fs, rfl, ?_, ?_⟩
  · unfold linkPass2
    rw [List.mem_flatMap]
    refine ⟨(fp, node), hmem, ?_⟩
    have himps : node.imports ≠ [] := List.ne_nil_of_mem hbrain
    have hany : node.imports.any (fun imp => imp.path = "brain" ∧ imp.type = "external") = true :=
      List.any_eq_true.mpr ⟨_, hbrain, by decide⟩
    rw [if_pos ⟨hfront, himps⟩, if_pos hany]
    simp only [hread]
    rw [if_pos hcontains]
    exact List.mem_append_left _ (List.mem_singleton.mpr rfl)
  · intro imp him hne
    unfold linkPass1
    rw [List.mem_flatMap]
    refine ⟨(fp, node), hmem, ?_⟩
    rw [List.mem_flatMap]
    refine ⟨imp, him, ?_⟩
    rw [if_neg hne]
    exact List.mem_singleton.mpr rfl

/-- Concrete frontend file node for the C8 witness. -/
def c8_node : FileNode :=
  FileNode.mk "p.tsx" "ui/src/pages/p.tsx" "file" 9 none .nil
    [{ path := "brain", type := "external" }, { path := "/ui/src/utils/x", type := "module" }]
    (some "TypeScript (React)")

/-- Concrete one-file map for the C8 witness. -/
def c8_map : FMap := [("ui/src/pages/p.tsx", c8_node)]

/-- Concrete filesystem carrying the call-site text for the C8 witness. -/
def c8_fs : FS := fun p =>
  if p = ["ui", "src", "pages", "p.tsx"] then
    some (FSMeta.file 9 0 (some "const r = await brain.scan_codebase()") true)
  else none

/-- C8 witness at the concrete one-file map. -/
theorem c8_witness :
    ∃ l1 l2, buildLinks c8_map c8_fs = l1 ++ l2 ∧
      ({ source := "ui/src/pages/p.tsx", target := "src/app/apis/codebase",
         type := "api-usage" } : CodebaseLink) ∈ l2 ∧
      ∀ imp ∈ c8_node.imports, imp.type ≠ "external" →
        ({ source := "ui/src/pages/p.tsx", target := imp.path, type := imp.type } :
          CodebaseLink) ∈ l1 :=
  c8_brain_api_edge c8_map c8_fs "ui/src/pages/p.tsx" c8_node
    "const r = await brain.scan_codebase()" (by decide) (by decide) (by decide)
    (by decide) (by decide)

/-- Round trip between the two list representations of children. -/
theorem toList_ofList : ∀ l : List FileNode, (FileNodeList.ofList l).toList = l := by
  intro l
  induction l with
  | nil => rfl
  | cons c cs ih => simp [FileNodeList.ofList, FileNodeList.toList, ih]

/-- Reachable nodes of a converted children list. -/
theorem allNodesLists_ofList :
    ∀ l : List FileNode, allNodesLists (FileNodeList.ofList l) = l.flatMap allNodesList := by
  intro l
  induction l with
  | nil => rfl
  | cons c cs ih => simp [FileNodeList.ofList, allNodesLists, ih]

/-- The directory size invariant over every node reachable from a root:
each directory-typed node carries the sum of the sizes of its immediate
children. -/
def dirSizesOk (n : FileNode) : Prop :=
  ∀ x ∈ allNodesList n, x.type = "directory" → x.size = sumSizes x.children

/-- Helper: the accumulated total of the child loop is the sum of the
sizes of the collected children. -/
theorem scan_children_size (recur : List String → FMap → Option FileNode × FMap)
    (cur : List String) :
    ∀ (items : List String) (m : FMap),
      (scan_children recur cur items m).2.1 = sumSizes (scan_children recur cur items m).1 := by
  intro items
  induction items with
  | nil => intro m; simp [scan_children, sumSizes]
  | cons it rest ih =>
    intro m
    simp only [scan_children]
    cases hres : recur (cur ++ [it]) m with
    | mk onode m1 =>
      cases onode with
      | none => exact ih m1
      | some child =>
        simp only []
        rw [ih]
        by_cases hz : child.size ≠ 0
        · simp [sumSizes, hz]
        · simp only [not_not] at hz
          simp [sumSizes, hz]

/-- Helper: children collected by the loop inherit the invariant from
the recursion. -/
theorem scan_children_nodes_ok (recur : List String → FMap → Option FileNode × FMap)
    (cur : List String)
    (hrec : ∀ cur2 m2 node m3, recur cur2 m2 = (some node, m3) → dirSizesOk node) :
    ∀ (items : List String) (m : FMap),
      ∀ child ∈ (scan_children recur cur items m).1, dirSizesOk child := by
  intro items
  induction items with
  | nil => intro m child hchild; simp [scan_children] at hchild
  | cons it rest ih =>
    intro m child hchild
    simp only [scan_children] at hchild
    cases hres : recur (cur ++ [it]) m with
    | mk onode m1 =>
      rw [hres] at hchild
      cases onode with
      | none => exact ih m1 child hchild
      | some c =>
        simp only [List.mem_cons] at hchild
        rcases hchild with rfl | hchild
        · exact hrec _ _ _ _ hres
        · exact ih _ child hchild

/-- Helper: every tree the walker returns satisfies the directory size
invariant. -/
theorem scan_dir_ok :
    ∀ (md : Nat) (fs : FS) (base_path : String) (cur : List String) (m : FMap)
      (node : FileNode) (m2 : FMap),
      scan_directory fs base_path md cur m = (some node, m2) → dirSizesOk node := by
  intro md
  induction md with
  | zero =>
    intro fs base_path cur m node m2 h
    simp [scan_directory] at h
  | succ md ih =>
    intro fs base_path cur m node m2 h
    simp only [scan_directory] at h
    cases hfs : fs cur with
    | none => rw [hfs] at h; simp at h
    | some meta =>
      rw [hfs] at h
      simp only [] at h
      by_cases hex : nodeName base_path cur ∈ excluded_dirs
      · rw [if_pos hex] at h
        have hnode := (Prod.mk.injEq _ _ _ _).mp h
        obtain ⟨h1, h2⟩ := hnode
        have h1 := Option.some.inj h1
        subst h1
        intro x hx ht
        simp only [allNodesList, allNodesLists, List.mem_cons, List.mem_nil_iff, or_false] at hx
        subst hx
        simp [FileNode.size, FileNode.children, FileNode.childrenL, FileNodeList.toList, sumSizes]
      · rw [if_neg hex] at h
        cases meta with
        | dir entries mt =>
          simp only [] at h
          have hnode := (Prod.mk.injEq _ _ _ _).mp h
          obtain ⟨h1, h2⟩ := hnode
          have h1 := Option.some.inj h1
          subst h1
          intro x hx ht
          simp only [allNodesList, List.mem_cons] at hx
          rcases hx with rfl | hx
          · simp only [FileNode.size, FileNode.children, FileNode.childrenL, toList_ofList]
            exact scan_children_size _ cur _ m
          · rw [allNodesLists_ofList, List.mem_flatMap] at hx
            obtain ⟨c, hc, hxc⟩ := hx
            have hcok := scan_children_nodes_ok
              (fun c2 m2 => scan_directory fs base_path md c2 m2) cur
              (fun cur2 m2 node m3 hh => ih fs base_path cur2 m2 node m3 hh) _ m c hc
            exact hcok x hxc ht
        | file size mt text accessible =>
          cases accessible with
          | false => simp at h
          | true =>
            simp only [Prod.mk.injEq, if_pos, Option.some.injEq] at h
            obtain ⟨h1, h2⟩ := h
            subst h1
            intro x hx ht
            simp only [allNodesList, allNodesLists, List.mem_cons, List.not_mem_nil,
              or_false] at hx
            subst hx
            simp [FileNode.type] at ht

/-- Helper: scanning an existing directory at positive depth yields a
directory-typed node whose size is the sum of its children. -/
theorem scan_dir_top_dir :
    ∀ (md : Nat) (fs : FS) (base_path : String) (cur : List String) (m : FMap)
      (entries : Option (List String)) (mt : Nat) (node : FileNode) (m2 : FMap),
      fs cur = some (FSMeta.dir entries mt) →
      scan_directory fs base_path (md + 1) cur m = (some node, m2) →
      node.type = "directory" ∧ node.size = sumSizes node.children := by
  intro md fs base_path cur m entries mt node m2 hfs h
  simp only [scan_directory] at h
  rw [hfs] at h
  simp only [] at h
  by_cases hex : nodeName base_path cur ∈ excluded_dirs
  · rw [if_pos hex] at h
    simp only [Prod.mk.injEq, Option.some.injEq] at h
    obtain ⟨h1, h2⟩ := h
    subst h1
    refine ⟨rfl, ?_⟩
    simp [FileNode.size, FileNode.children, FileNode.childrenL, FileNodeList.toList, sumSizes]
  · rw [if_neg hex] at h
    simp only [Prod.mk.injEq, Option.some.injEq] at h
    obtain ⟨h1, h2⟩ := h
    subst h1
    refine ⟨rfl, ?_⟩
    simp only [FileNode.size, FileNode.children, FileNode.childrenL, toList_ofList]
    exact scan_children_size _ cur _ m

/-- Reachable nodes of a children list, through the plain list view. -/
theorem allNodesLists_eq_flatMap_toList :
    ∀ cs : FileNodeList, allNodesLists cs = cs.toList.flatMap allNodesList
  | .nil => rfl
  | .cons c cs => by
    simp [allNodesLists, FileNodeList.toList, allNodesLists_eq_flatMap_toList cs]

/-- Helper: every category scan delivers its invariant package. -/
theorem scanCat_ok :
    ∀ (fs : FS) (path : List String) (m : FMap),
      (scanCat fs path m).1 = sumSizes (scanCat fs path m).2.1 ∧
      ∀ x ∈ (scanCat fs path m).2.1.flatMap allNodesList,
        x.type = "directory" → x.size = sumSizes x.children := by
  intro fs path m
  unfold scanCat
  cases hfs : fs path with
  | none => simp [sumSizes]
  | some meta =>
    cases meta with
    | file size mt text accessible => simp [sumSizes]
    | dir entries mt =>
      cases hscan : scan_directory fs "/app" 5 path m with
      | mk onode m1 =>
        cases onode with
        | none => simp [sumSizes]
        | some node =>
          simp only []
          have htop := scan_dir_top_dir 4 fs "/app" path m entries mt node m1 hfs hscan
          have hok := scan_dir_ok 5 fs "/app" path m node m1 hscan
          refine ⟨htop.2, ?_⟩
          intro x hx ht
          rw [List.mem_flatMap] at hx
          obtain ⟨c, hc, hxc⟩ := hx
          apply hok x ?_ ht
          cases node with
          | mk nm p t s lm cs im lg =>
            simp only [allNodesList, List.mem_cons]
            right
            rw [allNodesLists_eq_flatMap_toList, List.mem_flatMap]
            exact ⟨c, hc, hxc⟩

/-- Size sums distribute over append. -/
theorem sumSizes_append (a b : List FileNode) : sumSizes (a ++ b) = sumSizes a + sumSizes b := by
  simp [sumSizes]

/-- Helper: appending a category preserves its size total whenever the
category itself satisfies the invariant. -/
theorem appendCat_sum (cat : FileNode) (h : cat.size = sumSizes cat.children) :
    sumSizes (appendCat cat) = cat.size := by
  unfold appendCat
  by_cases hc : cat.children ≠ []
  · rw [if_pos hc]
    simp [sumSizes]
  · rw [if_neg hc]
    push_neg at hc
    by_cases hm : cat.name = "Media (Public)" ∨ cat.name = "Internal Storage"
    · rw [if_pos hm]
      simp [sumSizes, FileNode.size]
    · rw [if_neg hm]
      rw [h, hc]

/-- Helper: for categories other than the two asset placeholders, every
node contributed by the append step satisfies the invariant. -/
theorem appendCat_nodes_nonmedia (cat : FileNode)
    (hnm : ¬(cat.name = "Media (Public)" ∨ cat.name = "Internal Storage"))
    (hsz : cat.size = sumSizes cat.children)
    (hsub : ∀ x ∈ cat.children.flatMap allNodesList,
      x.type = "directory" → x.size = sumSizes x.children) :
    ∀ y ∈ appendCat cat, ∀ x ∈ allNodesList y,
      x.type = "directory" → x.size = sumSizes x.children := by
  intro y hy x hx ht
  unfold appendCat at hy
  by_cases hc : cat.children ≠ []
  · rw [if_pos hc] at hy
    simp only [List.mem_singleton] at hy
    subst hy
    cases y with
    | mk nm p t s lm cs im lg =>
      simp only [allNodesList, List.mem_cons] at hx
      rcases hx with rfl | hx
      · exact hsz
      · rw [allNodesLists_eq_flatMap_toList] at hx
        exact hsub x hx ht
  · rw [if_neg hc, if_neg hnm] at hy
    simp at hy

/-- Category node projections. -/
theorem mkCategory_size (n p : String) (s : Nat) (c : List FileNode) :
    (mkCategory n p s c).size = s := rfl

theorem mkCategory_name (n p : String) (s : Nat) (c : List FileNode) :
    (mkCategory n p s c).name = n := rfl

theorem mkCategory_children (n p : String) (s : Nat) (c : List FileNode) :
    (mkCategory n p s c).children = c := by
  simp [mkCategory, FileNode.children, FileNode.childrenL, toList_ofList]

/-- Invariant package delivered by one category scan: the recorded size
is the sum of the copied children, and every node below satisfies the
directory size invariant. -/
def scanCatOkStmt (r : Nat × List FileNode × FMap) : Prop :=
  r.1 = sumSizes r.2.1 ∧
    ∀ x ∈ r.2.1.flatMap allNodesList, x.type = "directory" → x.size = sumSizes x.children

/-- Helper: in the assembled root structure, every directory node other
than the two asset placeholder categories satisfies the size invariant,
the root included. -/
theorem root_assembly_inv (r1 r2 r3 r4 : Nat × List FileNode × FMap)
    (H1 : scanCatOkStmt r1) (H2 : scanCatOkStmt r2) (H3 : scanCatOkStmt r3)
    (H4 : scanCatOkStmt r4) :
    ∀ x ∈ allNodesList (FileNode.mk "Taskflow App" "/" "directory"
        (r1.1 + r2.1 + r3.1 + r4.1) none
        (FileNodeList.ofList
          (appendCat (mkCategory "Pages" "/ui/src/pages" r1.1 r1.2.1) ++
            appendCat (mkCategory "UI Components" "/ui/src/components" r2.1 r2.2.1) ++
            appendCat (mkCategory "UI Files" "/ui/src/utils" r3.1 r3.2.1) ++
            appendCat (mkCategory "APIs" "/src/app/apis" r4.1 r4.2.1) ++
            appendCat (mkCategory "Media (Public)" "/static-assets" 0 []) ++
            appendCat (mkCategory "Internal Storage" "/storage" 0 []))) [] none),
      x.path ≠ "/static-assets" → x.path ≠ "/storage" →
      x.type = "directory" → x.size = sumSizes x.children := by
  intro x hx hp1 hp2 ht
  simp only [allNodesList, List.mem_cons] at hx
  rcases hx with rfl | hx
  · simp only [FileNode.size, FileNode.children, FileNode.childrenL, toList_ofList]
    have e1 : sumSizes (appendCat (mkCategory "Pages" "/ui/src/pages" r1.1 r1.2.1)) = r1.1 :=
      appendCat_sum _ (by rw [mkCategory_size, mkCategory_children]; exact H1.1)
    have e2 : sumSizes (appendCat
        (mkCategory "UI Components" "/ui/src/components" r2.1 r2.2.1)) = r2.1 :=
      appendCat_sum _ (by rw [mkCategory_size, mkCategory_children]; exact H2.1)
    have e3 : sumSizes (appendCat (mkCategory "UI Files" "/ui/src/utils" r3.1 r3.2.1)) = r3.1 :=
      appendCat_sum _ (by rw [mkCategory_size, mkCategory_children]; exact H3.1)
    have e4 : sumSizes (appendCat (mkCategory "APIs" "/src/app/apis" r4.1 r4.2.1)) = r4.1 :=
      appendCat_sum _ (by rw [mkCategory_size, mkCategory_children]; exact H4.1)
    have e5 : sumSizes (appendCat (mkCategory "Media (Public)" "/static-assets" 0 [])) = 0 := by
      decide
    have e6 : sumSizes (appendCat (mkCategory "Internal Storage" "/storage" 0 [])) = 0 := by
      decide
    rw [sumSizes_append, sumSizes_append, sumSizes_append, sumSizes_append, sumSizes_append,
      e1, e2, e3, e4, e5, e6]
    omega
  · rw [allNodesLists_ofList, List.mem_flatMap] at hx
    obtain ⟨y, hy, hxy⟩ := hx
    simp only [List.mem_append] at hy
    rcases hy with ((((hy | hy) | hy) | hy) | hy) | hy
    · refine appendCat_nodes_nonmedia _ ?_ ?_ ?_ y hy x hxy ht
      · simp [mkCategory_name]
      · rw [mkCategory_size, mkCategory_children]; exact H1.1
      · rw [mkCategory_children]; exact H1.2
    · refine appendCat_nodes_nonmedia _ ?_ ?_ ?_ y hy x hxy ht
      · simp [mkCategory_name]
      · rw [mkCategory_size, mkCategory_children]; exact H2.1
      · rw [mkCategory_children]; exact H2.2
    · refine appendCat_nodes_nonmedia _ ?_ ?_ ?_ y hy x hxy ht
      · simp [mkCategory_name]
      · rw [mkCategory_size, mkCategory_children]; exact H3.1
      · rw [mkCategory_children]; exact H3.2
    · refine appendCat_nodes_nonmedia _ ?_ ?_ ?_ y hy x hxy ht
      · simp [mkCategory_name]
      · rw [mkCategory_size, mkCategory_children]; exact H4.1
      · rw [mkCategory_children]; exact H4.2
    · have hmedia : ∀ y ∈ appendCat (mkCategory "Media (Public)" "/static-assets" 0 []),
          ∀ x ∈ allNodesList y, x.type = "directory" → x.path = "/static-assets" := by decide
      exact absurd (hmedia y hy x hxy ht) hp1
    · have hstorage : ∀ y ∈ appendCat (mkCategory "Internal Storage" "/storage" 0 []),
          ∀ x ∈ allNodesList y, x.type = "directory" → x.path = "/storage" := by decide
      exact absurd (hstorage y hy x hxy ht) hp2

/-- C2 amended: every directory node of every tree `scan_directory`
returns has size equal to the sum of its immediate children, and the
same holds for every directory node of the `/scan` structure except the
two placeholder Media/Storage category nodes (paths `/static-assets` and
`/storage`), which keep size zero while holding one placeholder child of
size 100. -/
theorem c2_amended :
    (∀ (fs : FS) (base_path : String) (md : Nat) (cur : List String) (m : FMap)
        (node : FileNode) (m2 : FMap),
        scan_directory fs base_path md cur m = (some node, m2) →
        ∀ x ∈ allNodesList node, x.type = "directory" → x.size = sumSizes x.children) ∧
    (∀ (fs : FS) (resp : CodebaseResponse), computeScan fs = Except.ok resp →
        ∀ x ∈ allNodesList resp.structure_node,
          x.path ≠ "/static-assets" → x.path ≠ "/storage" →
          x.type = "directory" → x.size = sumSizes x.children) := by
  constructor
  · intro fs base_path md cur m node m2 h
    exact scan_dir_ok md fs base_path cur m node m2 h
  · intro fs resp h x hx hp1 hp2 ht
    have hstruct : resp.structure_node = (computeScanCore fs).1 := by
      unfold computeScan at h
      by_cases hc : (computeScanCore fs).1.children = []
      · rw [if_pos hc] at h
        cases h
      · rw [if_neg hc] at h
        have h2 := Except.ok.inj h
        rw [← h2]
    rw [hstruct] at hx
    exact root_assembly_inv
      (scanCat fs ["ui", "src", "pages"] [])
      (scanCat fs ["ui", "src", "components"] (scanCat fs ["ui", "src", "pages"] []).2.2)
      (scanCat fs ["ui", "src", "utils"]
        (scanCat fs ["ui", "src", "components"] (scanCat fs ["ui", "src", "pages"] []).2.2).2.2)
      (scanCat fs ["src", "app", "apis"]
        (scanCat fs ["ui", "src", "utils"]
          (scanCat fs ["ui", "src", "components"]
            (scanCat fs ["ui", "src", "pages"] []).2.2).2.2).2.2)
      (scanCat_ok fs ["ui", "src", "pages"] [])
      (scanCat_ok fs ["ui", "src", "components"] (scanCat fs ["ui", "src", "pages"] []).2.2)
      (scanCat_ok fs ["ui", "src", "utils"]
        (scanCat fs ["ui", "src", "components"] (scanCat fs ["ui", "src", "pages"] []).2.2).2.2)
      (scanCat_ok fs ["src", "app", "apis"]
        (scanCat fs ["ui", "src", "utils"]
          (scanCat fs ["ui", "src", "components"]
            (scanCat fs ["ui", "src", "pages"] []).2.2).2.2).2.2)
      x hx hp1 hp2 ht

/-- C2 counterexample: on the empty filesystem the `/scan` structure
contains a directory node violating the size invariant (the Media
placeholder category has size zero and a single child of size 100), so
the claim as stated fails. -/
theorem c2_counterexample :
    (computeScan (fun _ => none)).toOption.map (fun r =>
      (allNodesList r.structure_node).all fun x =>
        !(x.type = "directory") || x.size = sumSizes x.children) = some false := by
  decide

/-- C2 witness: the scan-tree half of the amended claim applied to a
concrete one-directory filesystem. -/
theorem c2_witness :
    ∀ x ∈ allNodesList (FileNode.mk "app" "/" "directory" 0 (some 0) .nil [] none),
      x.type = "directory" → x.size = sumSizes x.children :=
  c2_amended.1 (fun p => if p = [] then some (FSMeta.dir (some []) 0) else none) "/app" 1 [] []
    (FileNode.mk "app" "/" "directory" 0 (some 0) .nil [] none) [] (by decide)

/-- Prefix check as an existential decomposition. -/
theorem isPrefixL_iff (p s : List Char) : isPrefixL p s = true ↔ ∃ t, s = p ++ t := by
  induction p generalizing s with
  | nil => simp [isPrefixL]
  | cons a as ih =>
    cases s with
    | nil =>
      simp [isPrefixL]
    | cons b bs =>
      simp only [isPrefixL, Bool.and_eq_true, decide_eq_true_eq, ih, List.cons_append,
        List.cons.injEq]
      constructor
      · rintro ⟨rfl, t, rfl⟩
        exact ⟨t, rfl, rfl⟩
      · rintro ⟨t, rfl, rfl⟩
        exact ⟨rfl, t, rfl⟩

/-- Splitting always yields at least one piece. -/
theorem splitSlash_ne_nil (l : List Char) : splitSlash l ≠ [] := by
  cases l with
  | nil => simp [splitSlash]
  | cons c cs =>
    simp only [splitSlash]
    by_cases hc : c = '/'
    · simp [hc]
    · simp only [hc, if_false]
      cases splitSlash cs <;> simp

/-- A slash splits the pieces of its two sides. -/
theorem splitSlash_append (a b : List Char) :
    splitSlash (a ++ '/' :: b) = splitSlash a ++ splitSlash b := by
  induction a with
  | nil => simp [splitSlash]
  | cons c cs ih =>
    by_cases hc : c = '/'
    · subst hc
      simp [splitSlash, ih]
    · simp only [List.cons_append, splitSlash, hc, if_false]
      have hne := splitSlash_ne_nil cs
      cases hsc : splitSlash cs with
      | nil => exact absurd hsc hne
      | cons h t =>
        simp only [List.append_eq]
        rw [ih, hsc]
        simp

/-- A leading dot component splits off. -/
theorem splitSlash_dotslash (l : List Char) :
    splitSlash ('.' :: '/' :: l) = ['.'] :: splitSlash l := by
  simp [splitSlash]

/-- The component loop drops dot components. -/
theorem normStep_dot (k : Nat) (acc : List (List Char)) : normStep k acc ['.'] = acc := by
  simp [normStep]


/-- A slash-headed pattern cannot prefix a string not starting with one. -/
theorem isPrefixL_slash_head_false (cs b : List Char) (hb : b.head? ≠ some '/') :
    isPrefixL ('/' :: cs) b = false := by
  cases b with
  | nil => rfl
  | cons d ds =>
    have hd : d ≠ '/' := by
      intro h
      exact hb (by rw [h]; rfl)
    simp only [isPrefixL, Bool.and_eq_false_iff]
    left
    exact decide_eq_false (fun h => hd h.symm)

/-- An all-slash pattern sees no difference between two suffixes that
both avoid a leading slash. -/
theorem isPrefixL_append_eq_of_slashes (p : List Char) (hp : ∀ c ∈ p, c = '/') :
    ∀ (a b1 b2 : List Char), b1.head? ≠ some '/' → b2.head? ≠ some '/' →
      isPrefixL p (a ++ b1) = isPrefixL p (a ++ b2) := by
  induction p with
  | nil => intro a b1 b2 h1 h2; rfl
  | cons c cs ih =>
    intro a b1 b2 h1 h2
    have hc : c = '/' := hp c (List.mem_cons_self c cs)
    subst hc
    have hcs : ∀ x ∈ cs, x = '/' := fun x hx => hp x (List.mem_cons_of_mem _ hx)
    cases a with
    | nil =>
      simp only [List.nil_append]
      rw [isPrefixL_slash_head_false cs b1 h1, isPrefixL_slash_head_false cs b2 h2]
    | cons x xs =>
      simp only [List.cons_append, isPrefixL, List.append_eq]
      rw [ih hcs xs b1 b2 h1 h2]

/-- The retained leading slashes agree for two suffixes of a common
prefix when neither suffix starts with a slash. -/
theorem initialSlashes_append_eq (a b1 b2 : List Char)
    (h1 : b1.head? ≠ some '/') (h2 : b2.head? ≠ some '/') :
    initialSlashes (a ++ b1) = initialSlashes (a ++ b2) := by
  unfold initialSlashes
  rw [isPrefixL_append_eq_of_slashes ['/', '/'] (by decide) a b1 b2 h1 h2,
    isPrefixL_append_eq_of_slashes ['/', '/', '/'] (by decide) a b1 b2 h1 h2,
    isPrefixL_append_eq_of_slashes ['/'] (by decide) a b1 b2 h1 h2]

/-- The component fold ignores an interspersed dot component. -/
theorem foldl_normStep_skip_dot (k : Nat) (A B : List (List Char)) (init : List (List Char)) :
    (A ++ ['.'] :: B).foldl (normStep k) init = (A ++ B).foldl (normStep k) init := by
  simp [List.foldl_append, List.foldl_cons, normStep_dot]

/-- Key normalization fact: appended after a slash boundary (or at the
very start), a dot-slash pair is invisible to `normpath`, provided the
remainder does not itself begin with a slash. -/
theorem normCore_skip_dot (D xs : List Char)
    (hD : D = [] ∨ ∃ T, D = T ++ ['/']) (hx : xs.head? ≠ some '/') :
    normCore (D ++ '.' :: '/' :: xs) = normCore (D ++ xs) := by
  have hslash : initialSlashes (D ++ '.' :: '/' :: xs) = initialSlashes (D ++ xs) :=
    initialSlashes_append_eq D _ xs (by simp) hx
  have hsplit : ∃ A, splitSlash (D ++ '.' :: '/' :: xs) = A ++ ['.'] :: splitSlash xs ∧
      splitSlash (D ++ xs) = A ++ splitSlash xs := by
    rcases hD with rfl | ⟨T, rfl⟩
    · exact ⟨[], by simp [splitSlash_dotslash], by simp⟩
    · refine ⟨splitSlash T, ?_, ?_⟩
      · have he : T ++ ['/'] ++ '.' :: '/' :: xs = T ++ '/' :: ('.' :: '/' :: xs) := by simp
        rw [he, splitSlash_append, splitSlash_dotslash]
      · have he : T ++ ['/'] ++ xs = T ++ '/' :: xs := by simp
        rw [he, splitSlash_append]
  obtain ⟨A, hA1, hA2⟩ := hsplit
  by_cases hempty : D ++ xs = []
  · have hD0 : D = [] := by
      cases D with
      | nil => rfl
      | cons c cs => simp at hempty
    have hx0 : xs = [] := by
      subst hD0
      simpa using hempty
    subst hD0
    subst hx0
    decide
  · have hne1 : D ++ '.' :: '/' :: xs ≠ [] := by simp
    simp only [normCore]
    rw [if_neg hne1, if_neg hempty, hslash, hA1, hA2, foldl_normStep_skip_dot]

/-- Character list of a string append. -/
theorem strToList_append (a b : String) : (a ++ b).toList = a.toList ++ b.toList :=
  String.data_append a b

/-- A string not starting with a slash fails the slash startswith. -/
theorem strStartsWith_mk_head_false (l : List Char) (h : l.head? ≠ some '/') :
    strStartsWith (String.mk l) "/" = false :=
  isPrefixL_slash_head_false [] l h

/-- A string ending with a slash decomposes. -/
theorem strEndsWith_slash_exists (d : String) (h : strEndsWith d "/" = true) :
    ∃ T, d.toList = T ++ ['/'] := by
  unfold strEndsWith at h
  rw [isPrefixL_iff] at h
  obtain ⟨t, ht⟩ := h
  refine ⟨t.reverse, ?_⟩
  have := congrArg List.reverse ht
  simpa using this

/-- Joining a path against a directory is, after normalization, the same
as joining the path prefixed by dot-slash, when the path does not start
with a slash: exactly the two resolution routes the source takes for
an imported path with and without its leading dot-slash stripped. -/
theorem normpath_join_skip_dot (d : String) (xs : List Char) (hx : xs.head? ≠ some '/') :
    normpath (pyJoin d (String.mk xs)) = normpath (pyJoin d (String.mk ('.' :: '/' :: xs))) := by
  unfold pyJoin
  rw [strStartsWith_mk_head_false xs hx, strStartsWith_mk_head_false ('.' :: '/' :: xs) (by simp)]
  simp only [Bool.false_eq_true, if_false]
  by_cases hd : d = "" ∨ strEndsWith d "/" = true
  · rw [if_pos hd, if_pos hd]
    unfold normpath
    rw [strToList_append, strToList_append]
    have hD : d.toList = [] ∨ ∃ T, d.toList = T ++ ['/'] := by
      rcases hd with rfl | hd
      · exact Or.inl rfl
      · exact Or.inr (strEndsWith_slash_exists d hd)
    exact (normCore_skip_dot d.toList xs hD hx).symm
  · rw [if_neg hd, if_neg hd]
    unfold normpath
    rw [strToList_append, strToList_append, strToList_append, strToList_append]
    show normCore ((d.toList ++ ['/']) ++ xs) =
      normCore ((d.toList ++ ['/']) ++ ('.' :: '/' :: xs))
    exact (normCore_skip_dot (d.toList ++ ['/']) xs (Or.inr ⟨d.toList, rfl⟩) hx).symm

/-- Differing first characters refute a startswith. -/
theorem strStartsWith_ne_head_false (s pre : String) (c d : Char) (cs ds : List Char)
    (hs : s.toList = c :: cs) (hp : pre.toList = d :: ds) (h : d ≠ c) :
    strStartsWith s pre = false := by
  unfold strStartsWith
  rw [hs, hp]
  simp only [isPrefixL, Bool.and_eq_false_iff]
  left
  exact decide_eq_false h

/-- Modelled from the claim: resolve the import against the directory
containing the source file joined to the scan root, normalize, and emit
the root-relative remainder when the result keeps the root prefix, the
raw import string otherwise. -/
def c7SpecResolve (file_path root_path import_path import_type : String) : ImportInfo :=
  let source_dir := pyDirname (pyJoin root_path (lstripSlashes file_path))
  let resolved := normpath (pyJoin source_dir import_path)
  if strStartsWith resolved root_path then
    { path := strDrop resolved root_path.length, type := import_type }
  else
    { path := import_path, type := import_type }

/-- C7 counterexample: the import `.foo` from `ui/src/a.ts` begins with
a dot but not with dot-slash or dot-dot-slash, so the code resolves it
against the unrooted dirname of the source file and falls back to the
raw string, while the claimed procedure resolves it under the root and
emits the stripped path — the two disagree. -/
theorem c7_counterexample :
    extract_imports "ui/src/a.ts" "import x from \".foo\"" "/app" =
      [{ path := ".foo", type := "module" }] ∧
    c7SpecResolve "ui/src/a.ts" "/app" ".foo" "module" =
      { path := "/ui/src/.foo", type := "module" } ∧
    (".foo" : String) ≠ "/ui/src/.foo" := by
  refine ⟨by decide, by decide, by decide⟩

/-- C7 amended: for JS/TS import paths beginning with dot-slash (whose
remainder does not itself begin with a slash) or with dot-dot-slash, the
per-match normalization of `extract_imports` behaves exactly as the
claim describes: resolve against the directory of the source file joined
to the scan root, emit the root-prefix-stripped result when the
normalized path keeps the root prefix, the raw import string otherwise,
keeping the pattern kind. -/
theorem c7_amended :
    ∀ (fp rp ip ty : String),
      ((strStartsWith ip "./" = true ∧ strStartsWith (strDrop ip 2) "/" = false) ∨
        strStartsWith ip "../" = true) →
      jsNormalizeImport fp rp ip ty = c7SpecResolve fp rp ip ty := by
  intro fp rp ip ty h
  rcases h with ⟨hdot, hrest⟩ | hdd
  · obtain ⟨xs, hip⟩ : ∃ xs, ip.toList = '.' :: '/' :: xs := by
      have hh := (isPrefixL_iff "./".toList ip.toList).mp hdot
      obtain ⟨t, ht⟩ := hh
      exact ⟨t, ht⟩
    have hdrop : strDrop ip 2 = String.mk xs := by
      unfold strDrop
      rw [hip]
      rfl
    have hxhead : xs.head? ≠ some '/' := by
      intro hcontra
      cases xs with
      | nil => simp at hcontra
      | cons y ys =>
        have hy : y = '/' := by simpa using hcontra
        subst hy
        rw [hdrop] at hrest
        simp [strStartsWith, isPrefixL] at hrest
    have hc1 : strStartsWith ip "components/" = false :=
      strStartsWith_ne_head_false _ _ '.' 'c' _ _ hip rfl (by decide)
    have hc2 : strStartsWith ip "utils/" = false :=
      strStartsWith_ne_head_false _ _ '.' 'u' _ _ hip rfl (by decide)
    have hc3 : strStartsWith ip "@/" = false :=
      strStartsWith_ne_head_false _ _ '.' '@' _ _ hip rfl (by decide)
    have hc4 : strStartsWith ip "." = true := by
      unfold strStartsWith
      rw [hip]
      simp [isPrefixL]
    have hc5 : strStartsWith ip "/" = false :=
      strStartsWith_ne_head_false _ _ '.' '/' _ _ hip rfl (by decide)
    have hip_eq : ip = String.mk ('.' :: '/' :: xs) := String.ext hip
    unfold jsNormalizeImport c7SpecResolve
    simp only [hc1, hc2, hc3, hc4, hc5, hdot, hdrop, Bool.false_eq_true, if_false, if_true,
      not_or, not_false_eq_true, and_true, true_and, not_true]
    rw [hip_eq, normpath_join_skip_dot (pyDirname (pyJoin rp (lstripSlashes fp))) xs hxhead]
  · obtain ⟨xs, hip⟩ : ∃ xs, ip.toList = '.' :: '.' :: '/' :: xs := by
      have hh := (isPrefixL_iff "../".toList ip.toList).mp hdd
      obtain ⟨t, ht⟩ := hh
      exact ⟨t, ht⟩
    have hc1 : strStartsWith ip "components/" = false :=
      strStartsWith_ne_head_false _ _ '.' 'c' _ _ hip rfl (by decide)
    have hc2 : strStartsWith ip "utils/" = false :=
      strStartsWith_ne_head_false _ _ '.' 'u' _ _ hip rfl (by decide)
    have hc3 : strStartsWith ip "@/" = false :=
      strStartsWith_ne_head_false _ _ '.' '@' _ _ hip rfl (by decide)
    have hc4 : strStartsWith ip "." = true := by
      unfold strStartsWith
      rw [hip]
      simp [isPrefixL]
    have hc5 : strStartsWith ip "/" = false :=
      strStartsWith_ne_head_false _ _ '.' '/' _ _ hip rfl (by decide)
    have hc6 : strStartsWith ip "./" = false := by
      unfold strStartsWith
      rw [hip]
      simp [isPrefixL]
    unfold jsNormalizeImport c7SpecResolve
    simp only [hc1, hc2, hc3, hc4, hc5, hc6, hdd, Bool.false_eq_true, if_false, if_true,
      not_or, not_false_eq_true, and_true, true_and, not_true]

/-- C7 witness: the amended claim at a concrete relative import. -/
theorem c7_witness :
    jsNormalizeImport "ui/src/a.ts" "/app" "./b" "module" =
      c7SpecResolve "ui/src/a.ts" "/app" "./b" "module" :=
  c7_amended "ui/src/a.ts" "/app" "./b" "module" (Or.inl ⟨by decide, by decide⟩)
